import Mathlib

/-!
Shallow embedding of the `rustplanning` repository (eholum/rustplanning):
the search tree of `src/tree.rs` and the RRT planner of `src/planning/rrt.rs`.

Modelling conventions:
* `f64` distances and costs are modelled by `ℤ`: the code only adds and
  compares distances, so any linearly ordered abelian group is a faithful
  abstraction of the finite (non-NaN) doubles the spec requires callers
  to supply.
* `HashMap<T, usize>` is modelled by an association list with
  replace-or-append insertion; the code never iterates the map, so the
  entry order is irrelevant.
* `LinkedHashSet<usize>` is modelled by a `List Nat` with
  insert-if-absent-at-the-back semantics, which is exactly the
  insertion-order behaviour of `linked_hash_set`.
* Rust panics (slice-index panics, `Option::unwrap`) are modelled by an
  outer `Option`: `none` means the call panics.
* Fallible operations return `Except String` mirroring `Result<_, String>`.
-/

namespace RustPlanning

/-- A node of the tree of `src/tree.rs` (`struct Node<T>`): value, optional
parent index, cumulative cost, ordered children indices, and the
neighbor map filled by `nearest_neighbors`. -/
structure RNode (T : Type) where
  value : T
  parent : Option Nat
  cost : ℤ
  children : List Nat
  neighbors : List (Nat × ℤ)
  deriving DecidableEq, Repr

/-- The tree of `src/tree.rs` (`struct Tree<T>`): node storage plus the
value-to-index map. -/
structure RTree (T : Type) where
  nodes : List (RNode T)
  nodes_map : List (T × Nat)
  deriving DecidableEq, Repr

variable {T : Type} [DecidableEq T]

/-- `HashMap::get` on the association list modelling `nodes_map`. -/
def alookup : List (T × Nat) → T → Option Nat
  | [], _ => none
  | (k, v) :: rest, q => if k = q then some v else alookup rest q

/-- `HashMap::insert` on the association list: replace the binding if the
key is present, otherwise append. -/
def ainsert : List (T × Nat) → T → Nat → List (T × Nat)
  | [], k, v => [(k, v)]
  | (k0, v0) :: rest, k, v =>
    if k0 = k then (k, v) :: rest else (k0, v0) :: ainsert rest k v

/-- `LinkedHashSet::insert`: no-op if the element is present (keeping its
position), otherwise append at the back. -/
def lhsInsert (l : List Nat) (x : Nat) : List Nat :=
  if x ∈ l then l else l ++ [x]

/-- `HashMap::insert` on a neighbors map `HashMap<usize, f64>`:
replace-or-append. -/
def ninsert : List (Nat × ℤ) → Nat → ℤ → List (Nat × ℤ)
  | [], k, v => [(k, v)]
  | (k0, v0) :: rest, k, v =>
    if k0 = k then (k, v) :: rest else (k0, v0) :: ninsert rest k v

namespace RTree

/-- `Tree::new`: a single root node at index 0 with no parent and cost 0. -/
def new (val : T) : RTree T :=
  { nodes := [⟨val, none, 0, [], []⟩], nodes_map := [(val, 0)] }

variable (dist : T → T → ℤ)

/-- `Tree::add_child`.  Returns the tree after the call together with the
`Result`; `none` models a Rust panic (out-of-range index, impossible on
well-formed trees). -/
def addChild (t : RTree T) (parent child : T) :
    Option (RTree T × Except String Unit) :=
  if (alookup t.nodes_map child).isSome then
    some (t, .error "The child is already in the tree")
  else
    match alookup t.nodes_map parent with
    | none => some (t, .error "The parent was not found in the tree")
    | some pidx =>
      match t.nodes[pidx]? with
      | none => none
      | some pnode =>
        let cost := pnode.cost + dist child parent
        let childNode : RNode T := ⟨child, some pidx, cost, [], []⟩
        let cidx := t.nodes.length
        let nodes1 := t.nodes ++ [childNode]
        let map1 := ainsert t.nodes_map child cidx
        match nodes1[pidx]? with
        | none => none
        | some pn1 =>
          let nodes2 := nodes1.set pidx
            { pn1 with children := lhsInsert pn1.children cidx }
          some (⟨nodes2, map1⟩, .ok ())

/-- `Tree::set_parent`.  Follows the source statement-by-statement:
validate, remove the child from its existing parent's children, update
the parent pointer, insert into the new parent's children, recompute the
cost.  `none` models a Rust panic (the `unwrap` of the existing parent or
an out-of-range index). -/
def setParent (t : RTree T) (parent child : T) :
    Option (RTree T × Except String Unit) :=
  match alookup t.nodes_map parent with
  | none => some (t, .error "Parent not found in tree")
  | some pidx =>
    match alookup t.nodes_map child with
    | none => some (t, .error "Child not found in tree")
    | some cidx =>
      if cidx = 0 then
        some (t, .error "Cannot reparent the root of the tree!")
      else
        match t.nodes[cidx]? with
        | none => none
        | some cnode =>
          match cnode.parent with
          | none => none
          | some ep =>
            match t.nodes[ep]? with
            | none => none
            | some epn =>
              let nodes1 := t.nodes.set ep
                { epn with children := epn.children.erase cidx }
              match nodes1[cidx]? with
              | none => none
              | some cn1 =>
                let nodes2 := nodes1.set cidx { cn1 with parent := some pidx }
                match nodes2[pidx]? with
                | none => none
                | some pn2 =>
                  let nodes3 := nodes2.set pidx
                    { pn2 with children := lhsInsert pn2.children cidx }
                  match nodes3[pidx]? with
                  | none => none
                  | some pn3 =>
                    let cost := pn3.cost + dist child parent
                    match nodes3[cidx]? with
                    | none => none
                    | some cn3 =>
                      let nodes4 := nodes3.set cidx { cn3 with cost := cost }
                      some (⟨nodes4, t.nodes_map⟩, .ok ())

/-- `Tree::nearest_neighbor`: linear scan with `min_by`, which keeps the
earlier element on ties (first-found wins).  `none` models the `unwrap`
panic on an empty tree (impossible by construction). -/
def nearestNeighbor (t : RTree T) (val : T) : Option T :=
  match t.nodes with
  | [] => none
  | n0 :: rest =>
    some (rest.foldl
      (fun a nd => if dist val nd.value < dist val a.value then nd else a)
      n0).value

/-- The scan phase of `Tree::nearest_neighbors`: fold over the enumerated
nodes, skipping the query's own index, collecting `(index, distance)`
pairs within the radius, and tracking the strict minimum (the
`f64::MAX` sentinel is modelled by starting from `none`). -/
def nnScan (val : T) (radius : ℤ) (nodeIdx : Nat) :
    List (Nat × RNode T) → Option ℤ × Nat × List (Nat × ℤ) →
    Option ℤ × Nat × List (Nat × ℤ)
  | [], acc => acc
  | (i, check) :: rest, (minD, nearestIdx, neighbors) =>
    if i = nodeIdx then nnScan val radius nodeIdx rest (minD, nearestIdx, neighbors)
    else
      let d := dist val check.value
      let neighbors1 := if d ≤ radius then neighbors ++ [(i, d)] else neighbors
      let upd : Bool := match minD with
        | none => true
        | some m => d < m
      if upd then nnScan val radius nodeIdx rest (some d, i, neighbors1)
      else nnScan val radius nodeIdx rest (minD, nearestIdx, neighbors1)

/-- Characterization of one scan step of `Tree::nearest_neighbors`: an
enumerated node contributes `(index, distance)` exactly when it is not
the query's own index and lies within the radius. -/
def nnFilter (val : T) (radius : ℤ) (nodeIdx : Nat) (p : Nat × RNode T) :
    Option (Nat × ℤ) :=
  if p.1 ≠ nodeIdx ∧ dist val p.2.value ≤ radius then
    some (p.1, dist val p.2.value)
  else none

/-- The update phase of `Tree::nearest_neighbors`: for each collected
neighbor `(i, d)`, insert `i ↦ d` into the query node's neighbor map and
`nodeIdx ↦ d` into node `i`'s neighbor map.  The indices come from an
enumeration of the node vector, so they are always in range; the
fallback branches are unreachable. -/
def addNeighborPairs (nodeIdx : Nat) :
    List (Nat × ℤ) → List (RNode T) → List (RNode T)
  | [], nodes => nodes
  | (i, d) :: rest, nodes =>
    let nodes1 := match nodes[nodeIdx]? with
      | some nn => nodes.set nodeIdx { nn with neighbors := ninsert nn.neighbors i d }
      | none => nodes
    let nodes2 := match nodes1[i]? with
      | some m => nodes1.set i { m with neighbors := ninsert m.neighbors nodeIdx d }
      | none => nodes1
    addNeighborPairs nodeIdx rest nodes2

/-- `Tree::nearest_neighbors`: errors if the query value is not in the
tree; otherwise scans all other nodes, records every neighbor within the
radius into the neighbor maps, and returns the nearest other value
(or the query itself on a single-node tree).  `none` models the final
index panic (unreachable). -/
def nearestNeighbors (t : RTree T) (val : T) (radius : ℤ) :
    Option (Except String (RTree T × T)) :=
  match alookup t.nodes_map val with
  | none => some (.error "Specified value is not present in the tree")
  | some nodeIdx =>
    let scanned := nnScan dist val radius nodeIdx t.nodes.enum (none, nodeIdx, [])
    let nearestIdx := scanned.2.1
    let neighbors := scanned.2.2
    let nodes' := addNeighborPairs nodeIdx neighbors t.nodes
    match nodes'[nearestIdx]? with
    | none => none
    | some nd => some (.ok (⟨nodes', t.nodes_map⟩, nd.value))

end RTree

/-! ## The planner's tree

`src/planning/rrt.rs` operates on `crate::tree::HashTree`, whose source
file is not part of the repository snapshot (only its callers and the
planner tests are).  It is modelled below from the spec, §3 and §4.1. -/

/-- Modelled from the spec: a node of the planner's `HashTree` (spec §3
"Node"): unique value, optional parent index (`none` only for the root),
cumulative cost, and the insertion-ordered children sequence. -/
structure HNode (T : Type) where
  value : T
  parent : Option Nat
  cost : ℤ
  children : List Nat
  deriving DecidableEq, Repr

/-- Modelled from the spec: the planner's `HashTree` (spec §3
"SearchTree"): contiguous node storage indexed by stable integer
indices, plus the value-to-index map. -/
structure HashTree (T : Type) where
  nodes : List (HNode T)
  nodes_map : List (T × Nat)
  deriving DecidableEq, Repr

namespace HashTree

variable {T : Type} [DecidableEq T]

/-- Modelled from the spec: `new(root)` creates a tree with one node
(index 0, no parent, cost 0). -/
def new (val : T) : HashTree T :=
  { nodes := [⟨val, none, 0, []⟩], nodes_map := [(val, 0)] }

/-- Modelled from the spec: `cost(value)` returns the stored cost, or
fails (`none`) when the value is not found. -/
def cost (t : HashTree T) (val : T) : Option ℤ :=
  match alookup t.nodes_map val with
  | none => none
  | some i =>
    match t.nodes[i]? with
    | none => none
    | some nd => some nd.cost

variable (dist : T → T → ℤ)

/-- Modelled from the spec: `nearest_neighbor(query)` is a linear scan
returning the in-tree value minimizing the distance, ties broken by
encounter order over the node storage (first-found wins).  `none` only on
an empty tree, which `new` makes impossible. -/
def nearestNeighbor (t : HashTree T) (val : T) : Option T :=
  match t.nodes with
  | [] => none
  | n0 :: rest =>
    some (rest.foldl
      (fun a nd => if dist val nd.value < dist val a.value then nd else a)
      n0).value

/-- Modelled from the spec: `nearest_neighbors(query, radius)` returns
every in-tree value within the radius, mapped to its distance (the query
itself included when present, with distance 0). -/
def nearestNeighbors (t : HashTree T) (val : T) (radius : ℤ) :
    List (T × ℤ) :=
  t.nodes.filterMap (fun nd =>
    let d := dist val nd.value
    if d ≤ radius then some (nd.value, d) else none)

/-- Modelled from the spec: `add_child(parent, child)` appends a new node
whose parent is the node holding `parent`, with cost
`cost(parent) + distance(child, parent)`, appended at the end of the
parent's children sequence and added to the value map; fails with
`ChildAlreadyPresent` or `ParentNotFound` leaving the tree unchanged. -/
def addChild (t : HashTree T) (parent child : T) :
    HashTree T × Except String Unit :=
  if (alookup t.nodes_map child).isSome then
    (t, .error "child already in tree")
  else
    match alookup t.nodes_map parent with
    | none => (t, .error "parent not found")
    | some pidx =>
      match t.nodes[pidx]? with
      | none => (t, .error "parent not found")
      | some pn =>
        let cidx := t.nodes.length
        let childNode : HNode T :=
          ⟨child, some pidx, pn.cost + dist child parent, []⟩
        let nodes1 := (t.nodes.set pidx
          { pn with children := pn.children ++ [cidx] }) ++ [childNode]
        ({ nodes := nodes1, nodes_map := ainsert t.nodes_map child cidx },
         .ok ())

/-- Modelled from the spec: the planner's reparenting operation.  The
planner's rewire loop calls `tree.set_parent(neighbor, point)` to make
`point` the parent of `neighbor` (spec §4.2 "rewire" step 3 and the
repository test `test_rewire_tree`), so the first argument is the child
and the second the new parent.  Effects per spec §4.1: remove the child
from its former parent's children, append it to the new parent's
children, update the parent pointer, recompute the child's cost; fails
(tree unchanged) when either value is missing or the child is the root.
Per spec §3 a parent pointer is `none` only for the root, which is
rejected first, so the missing-former-parent branch is unreachable and
modelled as skipping the removal. -/
def setParent (t : HashTree T) (child parent : T) :
    HashTree T × Except String Unit :=
  match alookup t.nodes_map child with
  | none => (t, .error "child not found")
  | some cidx =>
    match alookup t.nodes_map parent with
    | none => (t, .error "parent not found")
    | some pidx =>
      if cidx = 0 then (t, .error "cannot reparent the root")
      else
        match t.nodes[cidx]?, t.nodes[pidx]? with
        | some cn, some pn =>
          let nodes1 := match cn.parent with
            | none => t.nodes
            | some ep =>
              match t.nodes[ep]? with
              | none => t.nodes
              | some epn =>
                t.nodes.set ep { epn with children := epn.children.erase cidx }
          let nodes2 := match nodes1[cidx]? with
            | none => nodes1
            | some cn1 => nodes1.set cidx
                { cn1 with parent := some pidx, cost := pn.cost + dist child parent }
          let nodes3 := match nodes2[pidx]? with
            | none => nodes2
            | some pn2 => nodes2.set pidx
                { pn2 with children := lhsInsert pn2.children cidx }
          ({ nodes := nodes3, nodes_map := t.nodes_map }, .ok ())
        | _, _ => (t, .error "child not found")

/-- Modelled from the spec: the end-to-root walk of `path(end)` along
parent pointers, producing the values end-first; fuel-bounded (the spec
invariant "tree rooted at index 0" guarantees termination, and the fuel
`nodes.length` always suffices on spec-conforming trees). -/
def pathAux (t : HashTree T) : Nat → Nat → Option (List T)
  | 0, _ => none
  | fuel + 1, i =>
    match t.nodes[i]? with
    | none => none
    | some nd =>
      match nd.parent with
      | none => some [nd.value]
      | some j => (pathAux t fuel j).map (fun rest => nd.value :: rest)

/-- Modelled from the spec: `path(end)` fails when `end` is not in the
tree, otherwise walks parent pointers to the root and returns the values
root-first. -/
def path (t : HashTree T) (endv : T) : Option (List T) :=
  match alookup t.nodes_map endv with
  | none => none
  | some i => (pathAux t t.nodes.length i).map List.reverse

end HashTree

/-! ## The planner (`src/planning/rrt.rs`) -/

section Planner

variable {T : Type} [DecidableEq T] (dist : T → T → ℤ)
variable (ext : T → T → T) (conn : T → T → Bool)

/-- The `while` loop of the rrt-connect branch of `extend_tree`
(`src/planning/rrt.rs` lines 56-70), made total by fuel: `none` means the
fuel ran out (the Rust loop can run unboundedly for adversarial
callbacks).  State: current point, current distance to the sample, and
the accumulated path; returns the final path and current point. -/
def connectLoop (sample : T) : Nat → T → ℤ → List T → Option (List T × T)
  | 0, _, _, _ => none
  | fuel + 1, cur, d, acc =>
    if conn cur sample then some (acc, cur)
    else
      let np := ext cur sample
      let nd := dist np sample
      if d ≤ nd ∨ conn cur np = false then some (acc, cur)
      else connectLoop sample fuel np nd (acc ++ [np])

/-- `extend_tree` (`src/planning/rrt.rs` lines 34-82): find the nearest
in-tree point to the sample; connect directly when possible; otherwise
either greedily chain toward the sample (rrt-connect) or take a single
`extend_fn` step.  The outer `none` covers the nearest-neighbor `unwrap`
on an empty tree and connect-loop fuel exhaustion. -/
def extendTree (t : HashTree T) (sample : T) (useConnect : Bool)
    (fuel : Nat) : Option (List T × T) :=
  match HashTree.nearestNeighbor dist t sample with
  | none => none
  | some nearest =>
    if conn nearest sample then some ([sample], nearest)
    else if useConnect then
      match connectLoop dist ext conn sample fuel nearest (dist nearest sample) [] with
      | none => none
      | some (acc, cur) =>
        if conn cur sample then some (acc ++ [sample], nearest)
        else some (acc, nearest)
    else
      let np := ext nearest sample
      if conn nearest np then some ([np], nearest)
      else some ([], nearest)

/-- The per-neighbor body of `rewire_tree` (`src/planning/rrt.rs` lines
92-104), threading the tree through the loop: skip the pivot itself,
`unwrap` the neighbor's cost (`none` = panic), and reparent the neighbor
onto the pivot when that is cheaper and connectable (the `set_parent`
result is discarded). -/
def rewireGo (point : T) (pointCost : ℤ) :
    List (T × ℤ) → HashTree T → Option (HashTree T)
  | [], t => some t
  | (n, d) :: rest, t =>
    if n = point then rewireGo point pointCost rest t
    else
      match HashTree.cost t n with
      | none => none
      | some oldCost =>
        if d + pointCost < oldCost then
          if conn point n then
            rewireGo point pointCost rest (HashTree.setParent dist t n point).1
          else rewireGo point pointCost rest t
        else rewireGo point pointCost rest t

/-- `rewire_tree` (`src/planning/rrt.rs` lines 84-105): query the
radius neighborhood of the pivot, `unwrap` the pivot's cost (`none` =
panic), then process every neighbor. -/
def rewireTree (t : HashTree T) (point : T) (rewireRadius : ℤ) :
    Option (HashTree T) :=
  let neighbors := HashTree.nearestNeighbors dist t point rewireRadius
  match HashTree.cost t point with
  | none => none
  | some pointCost => rewireGo dist conn point pointCost neighbors t

/-- The insertion loop of `rrt` (`src/planning/rrt.rs` lines 181-185):
add each new point as a child of the previous one (the first one's
parent is `nearest`), ignoring insertion failures; the parent cursor
advances even when an insertion failed. -/
def addPoints (t : HashTree T) (nearest : T) (pts : List T) : HashTree T :=
  (pts.foldl (fun acc nd => ((HashTree.addChild dist acc.1 acc.2 nd).1, nd))
    (t, nearest)).1

/-- The RRT* rewiring loop of `rrt` (`src/planning/rrt.rs` lines
188-192): rewire around every newly inserted point. -/
def rewireAll (rewireRadius : ℤ) :
    List T → HashTree T → Option (HashTree T)
  | [], t => some t
  | p :: rest, t =>
    match rewireTree dist conn t p rewireRadius with
    | none => none
    | some t' => rewireAll rewireRadius rest t'

variable (goal : T) (samples : Nat → T) (useStar : Bool) (rewireRadius : ℤ)
variable (useConnect : Bool) (timedOut : Nat → Bool) (fastReturn : Bool)
variable (connectFuel : Nat)

/-- The outer iteration loop of `rrt` (`src/planning/rrt.rs` lines
160-203).  `k` is the iteration counter (feeding the sample stream and
the wall-clock oracle `timedOut`, which models the elapsed-time check at
the top of each iteration); recursion is on the remaining iteration
count.  Connect-loop fuel exhaustion is modelled as skipping the
iteration (unreachable in the claims below); `none` propagates a panic
from rewiring. -/
def rrtLoop : Nat → Nat → HashTree T → Option (HashTree T)
  | _, 0, t => some t
  | k, remaining + 1, t =>
    if timedOut k then some t
    else
      let sample := samples k
      match extendTree dist ext conn t sample useConnect connectFuel with
      | none => rrtLoop (k + 1) remaining t
      | some (pts, nearest) =>
        match pts.getLast? with
        | none => rrtLoop (k + 1) remaining t
        | some lastPt =>
          let t1 := addPoints dist t nearest pts
          match (if useStar then rewireAll dist conn rewireRadius pts t1 else some t1) with
          | none => none
          | some t2 =>
            if conn goal lastPt then
              let t3 := (HashTree.addChild dist t2 lastPt goal).1
              if fastReturn then some t3
              else rrtLoop (k + 1) remaining t3
            else rrtLoop (k + 1) remaining t2

/-- `rrt` (`src/planning/rrt.rs` lines 137-209): run the iteration loop
from a tree seeded with the start, then recover `path(goal)`; a missing
path becomes the failure message. -/
def rrtModel (start : T) (maxIterations : Nat) :
    Option (Except String (List T × HashTree T)) :=
  let tree := HashTree.new start
  match rrtLoop dist ext conn goal samples useStar rewireRadius useConnect
      timedOut fastReturn connectFuel 0 maxIterations tree with
  | none => none
  | some tf =>
    match HashTree.path tf goal with
    | some p => some (.ok (p, tf))
    | none => some (.error "Failed to find path between poses")

end Planner

/-! ## Structural invariant of the stored parent relation (`src/tree.rs`) -/

section Invariant

variable {T : Type} [DecidableEq T]

/-- The stored parent pointer of node index `i` (`Node::parent`), `none`
when out of range. -/
def parentOf (t : RTree T) (i : Nat) : Option Nat :=
  match t.nodes[i]? with
  | some n => n.parent
  | none => none

/-- Node index `i` reaches the root (index 0) by following stored parent
pointers. -/
inductive ReachesRoot (t : RTree T) : Nat → Prop
  | root : ReachesRoot t 0
  | step {i j : Nat} : parentOf t i = some j → ReachesRoot t j →
      ReachesRoot t i

/-- Node index `i` reaches the root by parent pointers without the chain
(including `i` itself) ever passing through index `c`; i.e. `i` is not
`c` and not a descendant of `c`. -/
inductive ReachAvoid (t : RTree T) (c : Nat) : Nat → Prop
  | root : c ≠ 0 → ReachAvoid t c 0
  | step {i j : Nat} : i ≠ c → parentOf t i = some j → ReachAvoid t c j →
      ReachAvoid t c i

/-- `j` is a strict ancestor of `i` under the stored parent pointers. -/
inductive ParentPath (t : RTree T) : Nat → Nat → Prop
  | single {i j : Nat} : parentOf t i = some j → ParentPath t i j
  | cons {i j k : Nat} : parentOf t i = some j → ParentPath t j k →
      ParentPath t i k

/-- The parent relation has no cycle: no index is its own strict
ancestor. -/
def Acyclic (t : RTree T) : Prop := ∀ i, ¬ ParentPath t i i

/-- The tree-shape invariant of spec §3: the root at index 0 has no
parent, and every node is connected to the root through parent
pointers. -/
def Inv (t : RTree T) : Prop :=
  parentOf t 0 = none ∧ ∀ i < t.nodes.length, ReachesRoot t i

end Invariant

/-! ## Edge-validity chains (for `extend_tree`) -/

/-- Every consecutive pair of the list satisfies the connectivity
predicate. -/
def chainOk {T : Type} (conn : T → T → Bool) : List T → Bool
  | a :: b :: rest => conn a b && chainOk conn (b :: rest)
  | _ => true

/-! ## Concrete instances used by witnesses and counterexamples -/

/-- The integer metric of the repository's own tests
(`impl Distance for i32`): absolute difference. -/
def idist (a b : ℤ) : ℤ := |a - b|

/-- `Tree::new(1)` followed by `add_child(1, 2)`: concrete two-node
tree. -/
def exT2 : RTree ℤ :=
  { nodes := [⟨1, none, 0, [1], []⟩, ⟨2, some 0, 1, [], []⟩],
    nodes_map := [(1, 0), (2, 1)] }

/-- `Tree::new(1)` after `add_child(1, 2)` and `add_child(2, 3)`: a
three-node chain `1 → 2 → 3`. -/
def exT3 : RTree ℤ :=
  { nodes := [⟨1, none, 0, [1], []⟩, ⟨2, some 0, 1, [2], []⟩,
              ⟨3, some 1, 2, [], []⟩],
    nodes_map := [(1, 0), (2, 1), (3, 2)] }

/-- The state of `exT3` after the unrestricted `set_parent(3, 2)`: node
index 1 (value 2) and node index 2 (value 3) point at each other — a
cycle detached from the root. -/
def exT3cyc : RTree ℤ :=
  { nodes := [⟨1, none, 0, [], []⟩, ⟨2, some 2, 3, [2], []⟩,
              ⟨3, some 1, 2, [1], []⟩],
    nodes_map := [(1, 0), (2, 1), (3, 2)] }

/-- The state of `exT3` after the safe `set_parent(1, 3)` (reparenting
the leaf 3 directly under the root). -/
def exT3re : RTree ℤ :=
  { nodes := [⟨1, none, 0, [1, 2], []⟩, ⟨2, some 0, 1, [], []⟩,
              ⟨3, some 0, 2, [], []⟩],
    nodes_map := [(1, 0), (2, 1), (3, 2)] }

/-- A two-node planner tree (`HashTree::new(0)` then `add_child(0, 2)`),
used to exercise `rewire_tree`. -/
def exH2 : HashTree ℤ :=
  { nodes := [⟨0, none, 0, [1]⟩, ⟨2, some 0, 2, []⟩],
    nodes_map := [(0, 0), (2, 1)] }

/-! ## Shared helper lemmas -/

section Helpers

variable {T : Type} [DecidableEq T]

theorem alookup_ainsert_self (m : List (T × Nat)) (k : T) (v : Nat) :
    alookup (ainsert m k v) k = some v := by
  induction m with
  | nil => simp [ainsert, alookup]
  | cons hd rest ih =>
    obtain ⟨k0, v0⟩ := hd
    by_cases hk : k0 = k
    · subst hk
      simp [ainsert, alookup]
    · simp [ainsert, hk, alookup, ih]

theorem list_set_id {α : Type} (l : List α) (i : Nat) (a : α)
    (h : l[i]? = some a) : l.set i a = l := by
  have hi : i < l.length := (List.getElem?_eq_some.mp h).1
  apply List.ext_getElem?
  intro n
  by_cases hn : i = n
  · subst hn
    rw [List.getElem?_set_eq_of_lt a hi, h]
  · rw [List.getElem?_set_ne hn]

end Helpers

/-! ## Claims -/

section Claims

variable {T : Type} [DecidableEq T]

/-- C5: whenever `add_child` or `set_parent` returns an error (child
already present, parent or child not found, reparenting the root), the
tree is exactly what it was before the call: every error is raised
before any mutation. -/
theorem C5_error_leaves_tree_unchanged :
    (∀ (dist : T → T → ℤ) (t : RTree T) (p c : T) (t' : RTree T)
       (e : String), t.addChild dist p c = some (t', .error e) → t' = t) ∧
    (∀ (dist : T → T → ℤ) (t : RTree T) (p c : T) (t' : RTree T)
       (e : String), t.setParent dist p c = some (t', .error e) → t' = t) := by
  constructor
  · intro dist t p c t' e h
    unfold RTree.addChild at h
    split at h
    · simp only [Option.some.injEq, Prod.mk.injEq] at h
      exact h.1.symm
    · split at h
      · simp only [Option.some.injEq, Prod.mk.injEq] at h
        exact h.1.symm
      · dsimp only at h
        split at h
        · cases h
        · split at h
          · cases h
          · simp only [Option.some.injEq, Prod.mk.injEq] at h
            cases h.2
  · intro dist t p c t' e h
    unfold RTree.setParent at h
    split at h
    · simp only [Option.some.injEq, Prod.mk.injEq] at h
      exact h.1.symm
    · split at h
      · simp only [Option.some.injEq, Prod.mk.injEq] at h
        exact h.1.symm
      · split at h
        · simp only [Option.some.injEq, Prod.mk.injEq] at h
          exact h.1.symm
        · split at h
          · cases h
          · split at h
            · cases h
            · split at h
              · cases h
              · try dsimp only at h
                split at h
                · cases h
                · try dsimp only at h
                  split at h
                  · cases h
                  · try dsimp only at h
                    split at h
                    · cases h
                    · try dsimp only at h
                      split at h
                      · cases h
                      · simp only [Option.some.injEq, Prod.mk.injEq] at h
                        cases h.2

/-- C5 witness: `add_child(1, 2)` on the two-node tree `1 → 2` fails
with "child already present" and leaves the tree unchanged. -/
theorem C5_witness :
    ∃ r : RTree ℤ × Except String Unit,
      exT2.addChild idist 1 2 = some r ∧ r.1 = exT2 :=
  ⟨(exT2, .error "The child is already in the tree"), by rfl,
   C5_error_leaves_tree_unchanged.1 idist exT2 1 2 exT2
     "The child is already in the tree" (by rfl)⟩

/-- C4: when `parent` is in the tree and `child` is not, `add_child`
succeeds and afterwards a new node holding `child` exists at the fresh
index, its parent is the node holding `parent`, its cost is
`cost(parent) + distance(child, parent)`, it is the last element of the
parent's children sequence, and the value map resolves `child` to it.
(The index-validity side conditions `hlt` and `hfresh` hold on every
tree the operations build.) -/
theorem C4_add_child_postconditions (dist : T → T → ℤ) (t : RTree T)
    (parent child : T) (pidx : Nat)
    (hp : alookup t.nodes_map parent = some pidx)
    (hlt : pidx < t.nodes.length)
    (hc : alookup t.nodes_map child = none)
    (hfresh : t.nodes.length ∉ (t.nodes[pidx]).children) :
    ∃ t' : RTree T,
      t.addChild dist parent child = some (t', .ok ()) ∧
      t'.nodes.length = t.nodes.length + 1 ∧
      t'.nodes[t.nodes.length]? =
        some ⟨child, some pidx,
          (t.nodes[pidx]).cost + dist child parent, [], []⟩ ∧
      (t'.nodes[pidx]?).map RNode.children =
        some ((t.nodes[pidx]).children ++ [t.nodes.length]) ∧
      alookup t'.nodes_map child = some t.nodes.length := by
  have hget : t.nodes[pidx]? = some (t.nodes[pidx]) :=
    List.getElem?_eq_getElem hlt
  have happ :
      (t.nodes ++
        [(⟨child, some pidx, (t.nodes[pidx]).cost + dist child parent,
          [], []⟩ : RNode T)])[pidx]? = some (t.nodes[pidx]) := by
    rw [List.getElem?_append_left hlt]
    exact hget
  unfold RTree.addChild
  rw [hc]
  simp only [Option.isSome_none, Bool.false_eq_true, if_false]
  rw [hp]
  dsimp only
  rw [hget]
  dsimp only
  rw [happ]
  dsimp only
  refine ⟨_, rfl, ?_, ?_, ?_, ?_⟩
  · rw [List.length_set, List.length_append]
    rfl
  · rw [List.getElem?_set_ne (Nat.ne_of_lt hlt)]
    exact List.getElem?_concat_length _ _
  · rw [List.getElem?_set_eq_of_lt]
    · simp only [Option.map_some']
      rw [lhsInsert, if_neg hfresh]
    · simpa using Nat.lt_succ_of_lt hlt
  · exact alookup_ainsert_self _ _ _

/-- C4 witness: adding child 3 under parent 2 in the two-node tree
`1 → 2` satisfies all the postconditions. -/
theorem C4_witness :
    ∃ t' : RTree ℤ,
      exT2.addChild idist 2 3 = some (t', .ok ()) ∧
      t'.nodes.length = exT2.nodes.length + 1 ∧
      t'.nodes[exT2.nodes.length]? =
        some ⟨3, some 1,
          (exT2.nodes.get ⟨1, by decide⟩).cost + idist 3 2, [], []⟩ ∧
      (t'.nodes[1]?).map RNode.children =
        some ((exT2.nodes.get ⟨1, by decide⟩).children ++ [exT2.nodes.length]) ∧
      alookup t'.nodes_map 3 = some exT2.nodes.length :=
  C4_add_child_postconditions idist exT2 2 3 1 (by rfl) (by decide)
    (by rfl) (by decide)

theorem set4_collapse {α : Type} (l : List α) (i j : Nat) (a b c d : α)
    (hij : i ≠ j) :
    (((l.set i a).set j b).set i c).set j d = (l.set i c).set j d := by
  apply List.ext_getElem?
  intro n
  by_cases hjn : j = n
  · subst hjn
    simp [List.getElem?_set, List.length_set]
  · by_cases hin : i = n
    · subst hin
      simp [List.getElem?_set, List.length_set, hjn]
    · simp [List.getElem?_set, List.length_set, hjn, hin]

theorem setParent_rewire_shape (dist : T → T → ℤ) (t : RTree T)
    (p c : T) (pi ci : Nat)
    (hp : alookup t.nodes_map p = some pi)
    (hc : alookup t.nodes_map c = some ci)
    (hc0 : ci ≠ 0)
    (hclt : ci < t.nodes.length) (hplt : pi < t.nodes.length)
    (hpar : (t.nodes[ci]).parent = some pi)
    (hne : ci ≠ pi)
    (hcnt : ci ∉ (t.nodes[pi]).children.erase ci) :
    t.setParent dist p c =
      some (⟨(t.nodes.set pi
          { t.nodes[pi] with children :=
              (t.nodes[pi]).children.erase ci ++ [ci] }).set ci
          { t.nodes[ci] with
            parent := some pi,
            cost := (t.nodes[pi]).cost + dist c p },
        t.nodes_map⟩, .ok ()) := by
  have hcget : t.nodes[ci]? = some (t.nodes[ci]) :=
    List.getElem?_eq_getElem hclt
  have hpget : t.nodes[pi]? = some (t.nodes[pi]) :=
    List.getElem?_eq_getElem hplt
  unfold RTree.setParent
  rw [hp]
  dsimp only
  rw [hc]
  dsimp only
  rw [if_neg hc0, hcget]
  dsimp only
  rw [hpar]
  dsimp only
  rw [hpget]
  dsimp only
  rw [show (t.nodes.set pi _)[ci]? = some (t.nodes[ci]) from by
    rw [List.getElem?_set_ne (Ne.symm hne)]; exact hcget]
  dsimp only
  rw [show ((t.nodes.set pi _).set ci _)[pi]? =
      some ({ t.nodes[pi] with children :=
        (t.nodes[pi]).children.erase ci } : RNode T) from by
    rw [List.getElem?_set_ne hne, List.getElem?_set_eq (by simpa using hplt)]]
  dsimp only
  rw [show lhsInsert ((t.nodes[pi]).children.erase ci) ci =
      (t.nodes[pi]).children.erase ci ++ [ci] from by
    rw [lhsInsert, if_neg hcnt]]
  rw [show (((t.nodes.set pi _).set ci _).set pi _)[pi]? =
      some ({ t.nodes[pi] with children :=
        (t.nodes[pi]).children.erase ci ++ [ci] } : RNode T) from by
    rw [List.getElem?_set_eq (by simpa using hplt)]]
  dsimp only
  rw [show (((t.nodes.set pi _).set ci _).set pi _)[ci]? =
      some ({ t.nodes[ci] with parent := some pi } : RNode T) from by
    rw [List.getElem?_set_ne (Ne.symm hne),
      List.getElem?_set_eq (by simpa using hclt)]]
  dsimp only
  rw [set4_collapse _ _ _ _ _ _ _ (Ne.symm hne)]

/-- C8: when `p` is already the parent of the non-root in-tree value `c`,
`set_parent(p, c)` succeeds and is idempotent — running it again yields
exactly the same tree — and afterwards `c`'s index occurs exactly once in
`p`'s children sequence.  (`hne` and `hcnt` are well-formedness side
conditions: a node is never its own parent and children sequences hold no
duplicates.) -/
theorem C8_set_parent_idempotent (dist : T → T → ℤ) (t : RTree T)
    (p c : T) (pi ci : Nat)
    (hp : alookup t.nodes_map p = some pi)
    (hc : alookup t.nodes_map c = some ci)
    (hc0 : ci ≠ 0)
    (hclt : ci < t.nodes.length) (hplt : pi < t.nodes.length)
    (hpar : (t.nodes[ci]).parent = some pi)
    (hne : ci ≠ pi)
    (hcnt : (t.nodes[pi]).children.count ci ≤ 1) :
    ∃ t₁ : RTree T,
      t.setParent dist p c = some (t₁, .ok ()) ∧
      t₁.setParent dist p c = some (t₁, .ok ()) ∧
      (t₁.nodes[pi]?).map (fun n => n.children.count ci) = some 1 := by
  have hnotin : ci ∉ (t.nodes[pi]).children.erase ci := by
    rw [← List.count_eq_zero, List.count_erase_self]
    omega
  set pn : RNode T := t.nodes[pi] with hpn
  set cn : RNode T := t.nodes[ci] with hcn
  set C : RNode T :=
    { pn with children := pn.children.erase ci ++ [ci] } with hC
  set D : RNode T :=
    { cn with parent := some pi, cost := pn.cost + dist c p } with hD
  have h1 := setParent_rewire_shape dist t p c pi ci hp hc hc0 hclt hplt
    hpar hne hnotin
  set t₁ : RTree T := ⟨(t.nodes.set pi C).set ci D, t.nodes_map⟩ with ht1
  have hlen : t₁.nodes.length = t.nodes.length := by
    simp [ht1, List.length_set]
  have hclt1 : ci < t₁.nodes.length := by rw [hlen]; exact hclt
  have hplt1 : pi < t₁.nodes.length := by rw [hlen]; exact hplt
  have ht1c : t₁.nodes[ci]? = some D := by
    show ((t.nodes.set pi C).set ci D)[ci]? = some D
    rw [List.getElem?_set_eq (by simpa using hclt)]
  have ht1p : t₁.nodes[pi]? = some C := by
    show ((t.nodes.set pi C).set ci D)[pi]? = some C
    rw [List.getElem?_set_ne hne, List.getElem?_set_eq (by simpa using hplt)]
  have ht1cg : t₁.nodes[ci] = D := by
    have := List.getElem?_eq_getElem hclt1
    rw [ht1c] at this
    exact (Option.some.inj this).symm
  have ht1pg : t₁.nodes[pi] = C := by
    have := List.getElem?_eq_getElem hplt1
    rw [ht1p] at this
    exact (Option.some.inj this).symm
  have hCerase : C.children.erase ci = pn.children.erase ci := by
    rw [hC]
    show (pn.children.erase ci ++ [ci]).erase ci = pn.children.erase ci
    rw [List.erase_append_right _ hnotin, List.erase_cons_head]
    simp
  have h2 := setParent_rewire_shape dist t₁ p c pi ci hp hc hc0 hclt1 hplt1
    (by rw [ht1cg, hD]) hne
    (by rw [ht1pg, hCerase]; exact hnotin)
  refine ⟨t₁, h1, ?_, ?_⟩
  · rw [h2]
    congr 1
    refine congrArg (fun x => (x, Except.ok ())) ?_
    have hnodes :
        (t₁.nodes.set pi
          { t₁.nodes[pi] with
            children := (t₁.nodes[pi]).children.erase ci ++ [ci] }).set ci
          { t₁.nodes[ci] with
            parent := some pi,
            cost := (t₁.nodes[pi]).cost + dist c p } = t₁.nodes := by
      have hCC : ({ C with children := pn.children.erase ci ++ [ci] } : RNode T)
          = C := rfl
      have hDD : ({ D with
          parent := some pi, cost := C.cost + dist c p } : RNode T) = D := rfl
      rw [ht1cg, ht1pg, hCerase, hCC, hDD]
      show ((((t.nodes.set pi C).set ci D).set pi C).set ci D) = t₁.nodes
      rw [set4_collapse _ _ _ _ _ _ _ (Ne.symm hne)]
    rw [hnodes]
  · rw [ht1p]
    simp only [Option.map_some']
    have hz : List.count ci (pn.children.erase ci) = 0 :=
      List.count_eq_zero.mpr hnotin
    simp [List.count_append, hz]

/-- C6: with the rrt-connect flag off, `extend_tree` returns
`([s], nearest)` when `connectable_fn(nearest, s)` holds, where `nearest`
is the nearest in-tree value to the sample; otherwise it takes the single
step `p = extend_fn(nearest, s)` and returns `([p], nearest)` when
`connectable_fn(nearest, p)` holds and `([], nearest)` when not. -/
theorem C6_extend_tree_no_connect (dist : T → T → ℤ) (ext : T → T → T)
    (conn : T → T → Bool) (t : HashTree T) (sample nr : T) (fuel : Nat)
    (hnr : HashTree.nearestNeighbor dist t sample = some nr) :
    extendTree dist ext conn t sample false fuel =
      some (if conn nr sample then ([sample], nr)
            else if conn nr (ext nr sample) then ([ext nr sample], nr)
            else ([], nr)) := by
  unfold extendTree
  rw [hnr]
  by_cases h1 : conn nr sample
  · simp [h1]
  · by_cases h2 : conn nr (ext nr sample)
    · simp [h1, h2]
    · simp [h1, h2]

/-- C6 witness: on the single-node tree rooted at 1 with
`extend_fn(f, _) = f + 1` and `connectable_fn(a, b) = (|b - a| = 1)`,
querying sample 3 takes one step to 2. -/
theorem C6_witness :
    extendTree idist (fun f _ => f + 1)
      (fun a b : ℤ => decide (|b - a| = 1)) (HashTree.new 1) 3 false 5 =
      some (if (fun a b : ℤ => decide (|b - a| = 1)) 1 3 then ([(3:ℤ)], (1:ℤ))
            else if (fun a b : ℤ => decide (|b - a| = 1)) 1 ((fun f _ => f + 1) (1:ℤ) (3:ℤ))
              then ([(fun f _ => f + 1) (1:ℤ) (3:ℤ)], (1:ℤ))
            else ([], (1:ℤ))) :=
  C6_extend_tree_no_connect idist (fun f _ => f + 1)
    (fun a b : ℤ => decide (|b - a| = 1)) (HashTree.new 1) 3 1 5 (by rfl)

theorem chainOk_snoc (conn : T → T → Bool) :
    ∀ (l : List T) (w y : T), chainOk conn l = true →
      conn (l.getLastD w) y = true → chainOk conn (l ++ [y]) = true := by
  intro l
  induction l with
  | nil => intro w y _ _; rfl
  | cons a rest ih =>
    intro w y hchain hconn
    cases rest with
    | nil =>
      have ha : conn a y = true := by simpa using hconn
      simp [chainOk, ha]
    | cons b rs =>
      rw [chainOk] at hchain
      simp only [Bool.and_eq_true] at hchain
      have htail := ih a y hchain.2 (by
        simpa [List.getLastD] using hconn)
      show chainOk conn (a :: b :: (rs ++ [y])) = true
      rw [chainOk]
      simp only [Bool.and_eq_true]
      exact ⟨hchain.1, htail⟩

theorem connectLoop_chain (dist : T → T → ℤ) (ext : T → T → T)
    (conn : T → T → Bool) (sample nr : T) :
    ∀ (fuel : Nat) (cur : T) (d : ℤ) (acc : List T) (res : List T × T),
      connectLoop dist ext conn sample fuel cur d acc = some res →
      chainOk conn (nr :: acc) = true → acc.getLastD nr = cur →
      chainOk conn (nr :: res.1) = true ∧ res.1.getLastD nr = res.2 := by
  intro fuel
  induction fuel with
  | zero => intro cur d acc res h; cases h
  | succ f ih =>
    intro cur d acc res h hchain hlast
    rw [connectLoop] at h
    by_cases h1 : conn cur sample
    · rw [if_pos h1] at h
      cases Option.some.inj h
      exact ⟨hchain, hlast⟩
    · rw [if_neg h1] at h
      dsimp only at h
      by_cases h2 : d ≤ dist (ext cur sample) sample ∨
          conn cur (ext cur sample) = false
      · rw [if_pos h2] at h
        cases Option.some.inj h
        exact ⟨hchain, hlast⟩
      · rw [if_neg h2] at h
        have hconn : conn cur (ext cur sample) = true := by
          cases hcc : conn cur (ext cur sample) with
          | false => exact absurd (Or.inr hcc) h2
          | true => rfl
        have hchain2 : chainOk conn (nr :: (acc ++ [ext cur sample])) = true := by
          have := chainOk_snoc conn (nr :: acc) nr (ext cur sample) hchain
            (by
              have : (nr :: acc).getLastD nr = acc.getLastD nr := by
                cases acc <;> simp [List.getLastD]
              rw [this, hlast]
              exact hconn)
          simpa using this
        exact ih (ext cur sample) (dist (ext cur sample) sample)
          (acc ++ [ext cur sample]) res h hchain2 (List.getLastD_concat _ _ _)

/-- C9: whenever `extend_tree` returns a non-empty sequence of new points
with anchor `nearest`, every consecutive edge of the chain
`nearest, p₁, …, p_k` satisfied the connectivity predicate when it was
appended — in all three modes (direct connect, rrt-connect chain, single
step). -/
theorem C9_extend_tree_chain_connectable (dist : T → T → ℤ)
    (ext : T → T → T) (conn : T → T → Bool) (t : HashTree T) (sample : T)
    (useConnect : Bool) (fuel : Nat) (pts : List T) (nr : T)
    (h : extendTree dist ext conn t sample useConnect fuel = some (pts, nr))
    (hne : pts ≠ []) :
    chainOk conn (nr :: pts) = true := by
  unfold extendTree at h
  cases hn : HashTree.nearestNeighbor dist t sample with
  | none => rw [hn] at h; cases h
  | some nr0 =>
    rw [hn] at h
    dsimp only at h
    by_cases h1 : conn nr0 sample
    · rw [if_pos h1] at h
      cases Option.some.inj h
      simp [chainOk, h1]
    · rw [if_neg h1] at h
      cases useConnect with
      | true =>
        rw [if_pos rfl] at h
        cases hl : connectLoop dist ext conn sample fuel nr0
            (dist nr0 sample) [] with
        | none => rw [hl] at h; cases h
        | some res =>
          obtain ⟨acc, cur⟩ := res
          rw [hl] at h
          dsimp only at h
          obtain ⟨hchain, hlast⟩ := connectLoop_chain dist ext conn sample
            nr0 fuel nr0 (dist nr0 sample) [] (acc, cur) hl (by simp [chainOk])
            (by simp [List.getLastD])
          by_cases h2 : conn cur sample
          · rw [if_pos h2] at h
            cases Option.some.inj h
            have := chainOk_snoc conn (nr :: acc) nr sample hchain (by
              have hstep : (nr :: acc).getLastD nr = acc.getLastD nr := by
                cases hres : acc <;> simp [List.getLastD]
              rw [hstep]
              rw [show acc.getLastD nr = cur from hlast]
              exact h2)
            simpa using this
          · rw [if_neg h2] at h
            cases Option.some.inj h
            exact hchain
      | false =>
        rw [if_neg (by simp)] at h
        by_cases h2 : conn nr0 (ext nr0 sample)
        · rw [if_pos h2] at h
          cases Option.some.inj h
          simp [chainOk, h2]
        · rw [if_neg h2] at h
          cases Option.some.inj h
          exact absurd rfl hne

/-- C9 witness: the rrt-connect chain from the single-node tree rooted
at 1 toward sample 5 yields points 2, 3, 4, 5, and every consecutive
edge of `1, 2, 3, 4, 5` satisfies the step predicate. -/
theorem C9_witness :
    chainOk (fun a b : ℤ => decide (|b - a| = 1)) [1, 2, 3, 4, 5] = true :=
  C9_extend_tree_chain_connectable idist (fun f _ => f + 1)
    (fun a b : ℤ => decide (|b - a| = 1)) (HashTree.new 1) 5 true 10
    [2, 3, 4, 5] 1 (by rfl) (by decide)

theorem hsetParent_fields (dist : T → T → ℤ) (t : HashTree T) (c p : T) :
    ((HashTree.setParent dist t c p).1).nodes_map = t.nodes_map ∧
    ((HashTree.setParent dist t c p).1).nodes.length = t.nodes.length := by
  unfold HashTree.setParent
  repeat' split
  all_goals refine ⟨rfl, ?_⟩
  all_goals try simp_all [List.length_set]
  all_goals (repeat' split)
  all_goals try simp_all [List.length_set]
  all_goals try rfl

theorem rewireGo_some (dist : T → T → ℤ) (conn : T → T → Bool)
    (point : T) (pc : ℤ) :
    ∀ (l : List (T × ℤ)) (t : HashTree T),
      (∀ x ∈ l, ∃ i, alookup t.nodes_map x.1 = some i ∧
        i < t.nodes.length) →
      ∃ t', rewireGo dist conn point pc l t = some t' ∧
        t'.nodes_map = t.nodes_map ∧ t'.nodes.length = t.nodes.length := by
  intro l
  induction l with
  | nil => intro t _; exact ⟨t, rfl, rfl, rfl⟩
  | cons hd rest ih =>
    intro t hmem
    obtain ⟨n, d⟩ := hd
    rw [rewireGo]
    by_cases hn : n = point
    · rw [if_pos hn]
      exact ih t (fun x hx => hmem x (List.mem_cons_of_mem _ hx))
    · rw [if_neg hn]
      obtain ⟨i, hi, hil⟩ := hmem (n, d) (List.mem_cons_self _ _)
      have hcost : HashTree.cost t n = some ((t.nodes[i]).cost) := by
        unfold HashTree.cost
        rw [hi]
        dsimp only
        rw [List.getElem?_eq_getElem hil]
      rw [hcost]
      dsimp only
      by_cases hlt : d + pc < (t.nodes[i]).cost
      · rw [if_pos hlt]
        by_cases hcc : conn point n
        · rw [if_pos hcc]
          have hfields := hsetParent_fields dist t n point
          obtain ⟨t', ht', hm, hl⟩ := ih ((HashTree.setParent dist t n point).1)
            (fun x hx => by
              obtain ⟨j, hj, hjl⟩ := hmem x (List.mem_cons_of_mem _ hx)
              exact ⟨j, by rw [hfields.1]; exact hj, by rw [hfields.2]; exact hjl⟩)
          exact ⟨t', ht', by rw [hm, hfields.1], by rw [hl, hfields.2]⟩
        · rw [if_neg hcc]
          exact ih t (fun x hx => hmem x (List.mem_cons_of_mem _ hx))
      · rw [if_neg hlt]
        exact ih t (fun x hx => hmem x (List.mem_cons_of_mem _ hx))

/-- C10: for every pivot `p` present in the tree (and a tree whose
value-to-index map covers its nodes, the spec §3 invariant),
`rewire_tree` never panics: the `unwrap` of `cost(p)` succeeds, and the
`unwrap` of `cost(neighbor)` succeeds for every neighbor returned by
`nearest_neighbors`, because every returned neighbor is an in-tree
value. -/
theorem C10_rewire_tree_no_panic (dist : T → T → ℤ) (conn : T → T → Bool)
    (t : HashTree T) (p : T) (r : ℤ) (pidx : Nat)
    (hp : alookup t.nodes_map p = some pidx) (hpl : pidx < t.nodes.length)
    (hwf : ∀ nd ∈ t.nodes, ∃ i, alookup t.nodes_map nd.value = some i ∧
      i < t.nodes.length) :
    ∃ t', rewireTree dist conn t p r = some t' := by
  unfold rewireTree
  have hcost : HashTree.cost t p = some ((t.nodes[pidx]).cost) := by
    unfold HashTree.cost
    rw [hp]
    dsimp only
    rw [List.getElem?_eq_getElem hpl]
  rw [hcost]
  dsimp only
  have hmem : ∀ x ∈ HashTree.nearestNeighbors dist t p r,
      ∃ i, alookup t.nodes_map x.1 = some i ∧ i < t.nodes.length := by
    intro x hx
    unfold HashTree.nearestNeighbors at hx
    obtain ⟨nd, hnd, hx2⟩ := List.mem_filterMap.mp hx
    obtain ⟨i, hi, hil⟩ := hwf nd hnd
    refine ⟨i, ?_, hil⟩
    dsimp only at hx2
    by_cases hdr : dist p nd.value ≤ r
    · rw [if_pos hdr] at hx2
      cases Option.some.inj hx2
      exact hi
    · rw [if_neg hdr] at hx2
      cases hx2
  obtain ⟨t', ht', _, _⟩ := rewireGo_some dist conn p ((t.nodes[pidx]).cost)
    (HashTree.nearestNeighbors dist t p r) t hmem
  exact ⟨t', ht'⟩

/-- C10 witness: rewiring the two-node planner tree `0 → 2` around the
in-tree pivot 0 with radius 5 completes without a panic. -/
theorem C10_witness :
    ∃ t', rewireTree idist (fun _ _ => true) exH2 0 5 = some t' :=
  C10_rewire_tree_no_panic idist (fun _ _ => true) exH2 0 5 0 (by rfl)
    (by decide)
    (by
      intro nd hnd
      simp only [exH2, List.mem_cons, List.not_mem_nil, or_false] at hnd
      rcases hnd with h | h
      · subst h
        exact ⟨0, rfl, by decide⟩
      · subst h
        exact ⟨1, rfl, by decide⟩)

/-- C7 counterexample: with `start = goal = 0` and `max_iterations = 0`
the planner returns `Ok(([0], tree))`, not `Err(NoPathFound)`: the tree
seeded with the start already contains the goal, so `path(goal)`
succeeds.  This refutes the claim that every zero-iteration call returns
an error. -/
theorem C7_counterexample :
    rrtModel idist (fun f _ => f + 1)
      (fun a b : ℤ => decide (|b - a| = 1)) 0 (fun _ => 0) false 1 false
      (fun _ => false) false 5 0 0 =
      some (.ok ([0], HashTree.new 0)) := by rfl

/-- C7 (amended): with `max_iterations = 0` the planner performs no
iterations and returns `Err(NoPathFound)` whenever the goal differs from
the start; when `goal = start` the seeded tree already contains the goal
and the call returns `Ok` instead. -/
theorem C7_zero_iterations_no_path (dist : T → T → ℤ) (ext : T → T → T)
    (conn : T → T → Bool) (goal : T) (samples : Nat → T) (useStar : Bool)
    (radius : ℤ) (useConnect : Bool) (timedOut : Nat → Bool)
    (fastRet : Bool) (fuel : Nat) (start : T) (hne : goal ≠ start) :
    rrtModel dist ext conn goal samples useStar radius useConnect timedOut
      fastRet fuel start 0 =
      some (.error "Failed to find path between poses") := by
  unfold rrtModel rrtLoop
  dsimp only
  unfold HashTree.path
  have hlook : alookup (HashTree.new start).nodes_map goal = none := by
    unfold HashTree.new alookup
    rw [if_neg (fun h => hne h.symm)]
    rfl
  rw [hlook]

/-- C7 witness: with start 0 and goal 5 (distinct), zero iterations
yield the no-path error. -/
theorem C7_witness :
    rrtModel idist (fun f _ => f + 1)
      (fun a b : ℤ => decide (|b - a| = 1)) 5 (fun _ => 0) false 1 false
      (fun _ => false) false 5 0 0 =
      some (.error "Failed to find path between poses") :=
  C7_zero_iterations_no_path idist (fun f _ => f + 1)
    (fun a b : ℤ => decide (|b - a| = 1)) 5 (fun _ => 0) false 1 false
    (fun _ => false) false 5 0 (by decide)

theorem foldMin_spec (dist : T → T → ℤ) (q : T) :
    ∀ (l : List (RNode T)) (a : RNode T),
      ∃ (k : Nat) (res : RNode T),
        (a :: l)[k]? = some res ∧
        l.foldl (fun x nd =>
          if dist q nd.value < dist q x.value then nd else x) a = res ∧
        (∀ (m : Nat) (x : RNode T), (a :: l)[m]? = some x →
          dist q res.value ≤ dist q x.value) ∧
        (∀ (m : Nat) (x : RNode T), m < k → (a :: l)[m]? = some x →
          dist q res.value < dist q x.value) := by
  intro l
  induction l with
  | nil =>
    intro a
    refine ⟨0, a, List.getElem?_cons_zero, rfl, ?_, ?_⟩
    · intro m x hm
      cases m with
      | zero =>
        rw [List.getElem?_cons_zero] at hm
        cases Option.some.inj hm
        exact le_refl _
      | succ m => simp at hm
    · intro m x hmk _
      omega
  | cons b rest ih =>
    intro a
    rw [List.foldl_cons]
    by_cases hlt : dist q b.value < dist q a.value
    · obtain ⟨k', res, hget, hfold, hmin, hpre⟩ := ih b
      rw [if_pos hlt]
      have hminb : dist q res.value ≤ dist q b.value :=
        hmin 0 b List.getElem?_cons_zero
      refine ⟨k' + 1, res, by rw [List.getElem?_cons_succ]; exact hget,
        hfold, ?_, ?_⟩
      · intro m x hm
        cases m with
        | zero =>
          rw [List.getElem?_cons_zero] at hm
          cases Option.some.inj hm
          exact le_trans hminb (le_of_lt hlt)
        | succ m =>
          rw [List.getElem?_cons_succ] at hm
          exact hmin m x hm
      · intro m x hmk hm
        cases m with
        | zero =>
          rw [List.getElem?_cons_zero] at hm
          cases Option.some.inj hm
          exact lt_of_le_of_lt hminb hlt
        | succ m =>
          rw [List.getElem?_cons_succ] at hm
          exact hpre m x (by omega) hm
    · obtain ⟨k', res, hget, hfold, hmin, hpre⟩ := ih a
      rw [if_neg hlt]
      have hab : dist q a.value ≤ dist q b.value := le_of_not_lt hlt
      have hmina : dist q res.value ≤ dist q a.value :=
        hmin 0 a List.getElem?_cons_zero
      cases k' with
      | zero =>
        have hres : a = res := by
          rw [List.getElem?_cons_zero] at hget
          exact Option.some.inj hget
        refine ⟨0, res, by rw [List.getElem?_cons_zero, hres], hfold, ?_, ?_⟩
        · intro m x hm
          cases m with
          | zero =>
            rw [List.getElem?_cons_zero] at hm
            cases Option.some.inj hm
            rw [← hres]
          | succ m =>
            cases m with
            | zero =>
              rw [List.getElem?_cons_succ, List.getElem?_cons_zero] at hm
              cases Option.some.inj hm
              rw [← hres]
              exact hab
            | succ m =>
              rw [List.getElem?_cons_succ, List.getElem?_cons_succ] at hm
              exact hmin (m + 1) x (by rw [List.getElem?_cons_succ]; exact hm)
        · intro m x hmk _
          omega
      | succ j =>
        rw [List.getElem?_cons_succ] at hget
        refine ⟨j + 2, res,
          by rw [List.getElem?_cons_succ, List.getElem?_cons_succ]; exact hget,
          hfold, ?_, ?_⟩
        · intro m x hm
          cases m with
          | zero =>
            rw [List.getElem?_cons_zero] at hm
            cases Option.some.inj hm
            exact hmina
          | succ m =>
            cases m with
            | zero =>
              rw [List.getElem?_cons_succ, List.getElem?_cons_zero] at hm
              cases Option.some.inj hm
              exact le_trans hmina hab
            | succ m =>
              rw [List.getElem?_cons_succ, List.getElem?_cons_succ] at hm
              exact hmin (m + 1) x (by rw [List.getElem?_cons_succ]; exact hm)
        · intro m x hmk hm
          cases m with
          | zero =>
            rw [List.getElem?_cons_zero] at hm
            cases Option.some.inj hm
            exact hpre 0 a (by omega) List.getElem?_cons_zero
          | succ m =>
            cases m with
            | zero =>
              rw [List.getElem?_cons_succ, List.getElem?_cons_zero] at hm
              cases Option.some.inj hm
              exact lt_of_lt_of_le
                (hpre 0 a (by omega) List.getElem?_cons_zero) hab
            | succ m =>
              rw [List.getElem?_cons_succ, List.getElem?_cons_succ] at hm
              exact hpre (m + 1) x (by omega)
                (by rw [List.getElem?_cons_succ]; exact hm)

/-- C3: on every non-empty tree, `nearest_neighbor(q)` returns the value
of a stored node whose distance to `q` is minimal, and among the
minimizers it is the one with the smallest node index (every
strictly-earlier node has strictly larger distance): `min_by` keeps the
first-found minimum under the stable iteration of the node vector. -/
theorem C3_nearest_neighbor_first_found_min (dist : T → T → ℤ)
    (t : RTree T) (q : T) (hne : t.nodes ≠ []) :
    ∃ (k : Nat) (res : RNode T),
      t.nodes[k]? = some res ∧
      t.nearestNeighbor dist q = some res.value ∧
      (∀ (m : Nat) (x : RNode T), t.nodes[m]? = some x →
        dist q res.value ≤ dist q x.value) ∧
      (∀ (m : Nat) (x : RNode T), m < k → t.nodes[m]? = some x →
        dist q res.value < dist q x.value) := by
  cases hn : t.nodes with
  | nil => exact absurd hn hne
  | cons n0 rest =>
    obtain ⟨k, res, hget, hfold, hmin, hpre⟩ := foldMin_spec dist q rest n0
    refine ⟨k, res, hget, ?_, hmin, hpre⟩
    unfold RTree.nearestNeighbor
    rw [hn]
    dsimp only
    rw [hfold]

/-- C3 witness: querying 5 against the chain `1 → 2 → 3` returns value 3
(node index 2), the unique minimizer. -/
theorem C3_witness :
    ∃ (k : Nat) (res : RNode ℤ),
      exT3.nodes[k]? = some res ∧
      exT3.nearestNeighbor idist 5 = some res.value ∧
      (∀ (m : Nat) (x : RNode ℤ), exT3.nodes[m]? = some x →
        idist 5 res.value ≤ idist 5 x.value) ∧
      (∀ (m : Nat) (x : RNode ℤ), m < k → exT3.nodes[m]? = some x →
        idist 5 res.value < idist 5 x.value) :=
  C3_nearest_neighbor_first_found_min idist exT3 5 (by decide)

theorem ninsert_absent (m : List (Nat × ℤ)) (k : Nat) (v : ℤ)
    (h : k ∉ m.map Prod.fst) : ninsert m k v = m ++ [(k, v)] := by
  induction m with
  | nil => rfl
  | cons hd rest ih =>
    obtain ⟨k0, v0⟩ := hd
    rw [ninsert]
    rw [if_neg (by
      intro hk
      exact h (by rw [hk]; exact List.mem_cons_self _ _))]
    rw [ih (fun hm => h (List.mem_cons_of_mem _ hm))]
    rfl

theorem ninsert_fold_eq :
    ∀ (pairs acc : List (Nat × ℤ)),
      (∀ p ∈ pairs, p.1 ∉ acc.map Prod.fst) →
      (pairs.map Prod.fst).Nodup →
      pairs.foldl (fun m p => ninsert m p.1 p.2) acc = acc ++ pairs := by
  intro pairs
  induction pairs with
  | nil => intro acc _ _; simp
  | cons p rest ih =>
    intro acc hnot hnd
    rw [List.foldl_cons, ninsert_absent acc p.1 p.2
      (hnot p (List.mem_cons_self _ _))]
    rw [List.map_cons, List.nodup_cons] at hnd
    rw [ih (acc ++ [(p.1, p.2)]) (fun x hx => by
      rw [List.map_append]
      intro hmem
      rcases List.mem_append.mp hmem with hm | hm
      · exact hnot x (List.mem_cons_of_mem _ hx) hm
      · simp only [List.map_cons, List.map_nil, List.mem_singleton] at hm
        exact hnd.1 (by rw [← hm]; exact List.mem_map_of_mem Prod.fst hx))
      hnd.2]
    simp

theorem filterMap_fst_sublist (g : Nat × RNode T → Option (Nat × ℤ))
    (hg : ∀ p q, g p = some q → q.1 = p.1) :
    ∀ l : List (Nat × RNode T),
      List.Sublist ((l.filterMap g).map Prod.fst) (l.map Prod.fst) := by
  intro l
  induction l with
  | nil => simp
  | cons p rest ih =>
    rw [List.filterMap_cons]
    cases hgp : g p with
    | none =>
      rw [List.map_cons]
      exact List.Sublist.cons p.1 ih
    | some q =>
      rw [List.map_cons, List.map_cons, hg p q hgp]
      exact List.Sublist.cons₂ p.1 ih

theorem nnScan_neighbors (dist : T → T → ℤ) (val : T) (radius : ℤ)
    (nodeIdx : Nat) :
    ∀ (l : List (Nat × RNode T)) (minD : Option ℤ) (ni : Nat)
      (acc : List (Nat × ℤ)),
      (RTree.nnScan dist val radius nodeIdx l (minD, ni, acc)).2.2 =
        acc ++ l.filterMap (RTree.nnFilter dist val radius nodeIdx) := by
  intro l
  induction l with
  | nil => intro minD ni acc; simp [RTree.nnScan]
  | cons hd rest ih =>
    intro minD ni acc
    obtain ⟨i, check⟩ := hd
    rw [RTree.nnScan, List.filterMap_cons]
    by_cases hi : i = nodeIdx
    · rw [if_pos hi, ih]
      have : RTree.nnFilter dist val radius nodeIdx (i, check) = none := by
        rw [RTree.nnFilter, if_neg (by
          intro hcond
          exact hcond.1 hi)]
      rw [this]
    · rw [if_neg hi]
      dsimp only
      by_cases hd : dist val check.value ≤ radius
      · rw [if_pos hd]
        have hf : RTree.nnFilter dist val radius nodeIdx (i, check) =
            some (i, dist val check.value) := by
          rw [RTree.nnFilter, if_pos ⟨hi, hd⟩]
        rw [hf]
        cases hb : (match minD with
          | none => true
          | some m => decide (dist val check.value < m) : Bool) with
        | true =>
          rw [if_pos rfl, ih]
          simp
        | false =>
          rw [if_neg Bool.false_ne_true, ih]
          simp
      · rw [if_neg hd]
        have hf : RTree.nnFilter dist val radius nodeIdx (i, check) =
            none := by
          rw [RTree.nnFilter, if_neg (by
            intro hcond
            exact hd hcond.2)]
        rw [hf]
        cases hb : (match minD with
          | none => true
          | some m => decide (dist val check.value < m) : Bool) with
        | true => rw [if_pos rfl, ih]
        | false => rw [if_neg Bool.false_ne_true, ih]

theorem nnScan_ni_lt (dist : T → T → ℤ) (val : T) (radius : ℤ)
    (nodeIdx n : Nat) :
    ∀ (l : List (Nat × RNode T)) (minD : Option ℤ) (ni : Nat)
      (acc : List (Nat × ℤ)),
      (∀ p ∈ l, p.1 < n) → ni < n →
      (RTree.nnScan dist val radius nodeIdx l (minD, ni, acc)).2.1 < n := by
  intro l
  induction l with
  | nil => intro minD ni acc _ hni; simpa [RTree.nnScan] using hni
  | cons hd rest ih =>
    intro minD ni acc hmem hni
    obtain ⟨i, check⟩ := hd
    rw [RTree.nnScan]
    by_cases hi : i = nodeIdx
    · rw [if_pos hi]
      exact ih minD ni acc (fun p hp => hmem p (List.mem_cons_of_mem _ hp)) hni
    · rw [if_neg hi]
      dsimp only
      cases hb : (match minD with
        | none => true
        | some m => decide (dist val check.value < m) : Bool) with
      | true =>
        rw [if_pos rfl]
        exact ih _ i _ (fun p hp => hmem p (List.mem_cons_of_mem _ hp))
          (hmem (i, check) (List.mem_cons_self _ _))
      | false =>
        rw [if_neg Bool.false_ne_true]
        exact ih minD ni _ (fun p hp => hmem p (List.mem_cons_of_mem _ hp)) hni

theorem addNeighborPairs_length (nodeIdx : Nat) :
    ∀ (pairs : List (Nat × ℤ)) (nodes : List (RNode T)),
      (RTree.addNeighborPairs nodeIdx pairs nodes).length = nodes.length := by
  intro pairs
  induction pairs with
  | nil => intro nodes; rfl
  | cons hd rest ih =>
    intro nodes
    obtain ⟨i, d⟩ := hd
    rw [RTree.addNeighborPairs]
    rw [ih]
    split <;> split <;> simp [List.length_set]

theorem addNeighborPairs_at (nodeIdx : Nat) :
    ∀ (pairs : List (Nat × ℤ)) (nodes : List (RNode T))
      (h : nodeIdx < nodes.length),
      (∀ p ∈ pairs, p.1 ≠ nodeIdx) →
      (RTree.addNeighborPairs nodeIdx pairs nodes)[nodeIdx]? =
        some { nodes[nodeIdx] with
          neighbors := pairs.foldl (fun m p => ninsert m p.1 p.2)
            ((nodes[nodeIdx]).neighbors) } := by
  intro pairs
  induction pairs with
  | nil =>
    intro nodes h _
    rw [RTree.addNeighborPairs, List.getElem?_eq_getElem h]
    rfl
  | cons hd rest ih =>
    intro nodes h hne
    obtain ⟨i, d⟩ := hd
    have hget : nodes[nodeIdx]? = some (nodes[nodeIdx]) :=
      List.getElem?_eq_getElem h
    rw [RTree.addNeighborPairs]
    dsimp only
    rw [hget]
    dsimp only
    have hine : i ≠ nodeIdx := hne (i, d) (List.mem_cons_self _ _)
    set X : RNode T := { nodes[nodeIdx] with
      neighbors := ninsert ((nodes[nodeIdx]).neighbors) i d } with hX
    set nodes1 : List (RNode T) := nodes.set nodeIdx X with hn1
    have hlen1 : nodes1.length = nodes.length := by
      rw [hn1, List.length_set]
    have hat1 : nodes1[nodeIdx]? = some X := by
      rw [hn1, List.getElem?_set_eq h]
    cases hbr : nodes1[i]? with
    | none =>
      rw [ih nodes1 (by rw [hlen1]; exact h)
        (fun p hp => hne p (List.mem_cons_of_mem _ hp))]
      have hXg : nodes1[nodeIdx] = X := by
        have := List.getElem?_eq_getElem (by rw [hlen1]; exact h :
          nodeIdx < nodes1.length)
        rw [hat1] at this
        exact (Option.some.inj this).symm
      rw [hXg, List.foldl_cons]
    | some m =>
      set nodes2 : List (RNode T) := nodes1.set i
        { m with neighbors := ninsert m.neighbors nodeIdx d } with hn2
      have hlen2 : nodes2.length = nodes.length := by
        rw [hn2, List.length_set, hlen1]
      rw [ih nodes2 (by rw [hlen2]; exact h)
        (fun p hp => hne p (List.mem_cons_of_mem _ hp))]
      have hat2 : nodes2[nodeIdx]? = some X := by
        rw [hn2, List.getElem?_set_ne hine, hat1]
      have hXg : nodes2[nodeIdx] = X := by
        have := List.getElem?_eq_getElem (by rw [hlen2]; exact h :
          nodeIdx < nodes2.length)
        rw [hat2] at this
        exact (Option.some.inj this).symm
      rw [hXg, List.foldl_cons]

theorem parentOf_some_lt (t : RTree T) (k m : Nat)
    (h : parentOf t k = some m) : k < t.nodes.length := by
  unfold parentOf at h
  cases hk : t.nodes[k]? with
  | none => rw [hk] at h; cases h
  | some n => exact (List.getElem?_eq_some.mp hk).1

theorem addChild_parentOf (dist : T → T → ℤ) (t t' : RTree T) (p c : T)
    (h : t.addChild dist p c = some (t', .ok ())) :
    ∃ pidx, pidx < t.nodes.length ∧
      t'.nodes.length = t.nodes.length + 1 ∧
      parentOf t' t.nodes.length = some pidx ∧
      ∀ k, k ≠ t.nodes.length → parentOf t' k = parentOf t k := by
  unfold RTree.addChild at h
  by_cases hck : (alookup t.nodes_map c).isSome
  · rw [if_pos hck] at h
    simp at h
  · rw [if_neg hck] at h
    cases hpi : alookup t.nodes_map p with
    | none =>
      rw [hpi] at h
      simp at h
    | some pidx =>
      rw [hpi] at h
      dsimp only at h
      cases hpn : t.nodes[pidx]? with
      | none => rw [hpn] at h; cases h
      | some pnode =>
        rw [hpn] at h
        dsimp only at h
        cases hpn1 : (t.nodes ++
            [(⟨c, some pidx, pnode.cost + dist c p, [], []⟩ : RNode T)])[pidx]?
            with
        | none => rw [hpn1] at h; cases h
        | some pn1 =>
          rw [hpn1] at h
          dsimp only at h
          simp only [Option.some.injEq, Prod.mk.injEq] at h
          obtain ⟨ht', -⟩ := h
          subst ht'
          have hplt : pidx < t.nodes.length :=
            (List.getElem?_eq_some.mp hpn).1
          have hpn1v : pn1 = pnode := by
            rw [List.getElem?_append_left hplt, hpn] at hpn1
            exact (Option.some.inj hpn1).symm
          refine ⟨pidx, hplt, ?_, ?_, ?_⟩
          · show ((t.nodes ++ [_]).set pidx _).length = t.nodes.length + 1
            rw [List.length_set, List.length_append]
            rfl
          · unfold parentOf
            dsimp only
            rw [List.getElem?_set_ne (Nat.ne_of_lt hplt),
              List.getElem?_concat_length]
          · intro k hk
            unfold parentOf
            dsimp only
            by_cases hkp : k = pidx
            · subst hkp
              rw [List.getElem?_set_eq (by
                  simpa [List.length_append] using Nat.lt_succ_of_lt hplt),
                hpn]
              dsimp only
              rw [hpn1v]
            · rw [List.getElem?_set_ne (fun hh => hkp hh.symm)]
              by_cases hkl : k < t.nodes.length
              · rw [List.getElem?_append_left hkl]
              · have hk1 : t.nodes.length + 1 ≤ k := by
                  rcases Nat.lt_or_ge k (t.nodes.length + 1) with hlt | hge
                  · exact absurd (by omega : k = t.nodes.length) hk
                  · exact hge
                rw [List.getElem?_eq_none (by
                    rw [List.length_append]
                    simpa using hk1),
                  List.getElem?_eq_none (by omega)]

theorem setParent_parentOf (dist : T → T → ℤ) (t t' : RTree T) (p c : T)
    (h : t.setParent dist p c = some (t', .ok ())) :
    ∃ pi ci, alookup t.nodes_map p = some pi ∧
      alookup t.nodes_map c = some ci ∧ ci ≠ 0 ∧
      t'.nodes.length = t.nodes.length ∧
      parentOf t' ci = some pi ∧
      ∀ k, k ≠ ci → parentOf t' k = parentOf t k := by
  unfold RTree.setParent at h
  cases hpi : alookup t.nodes_map p with
  | none => rw [hpi] at h; simp at h
  | some pi =>
    rw [hpi] at h
    dsimp only at h
    cases hci : alookup t.nodes_map c with
    | none => rw [hci] at h; simp at h
    | some ci =>
      rw [hci] at h
      dsimp only at h
      by_cases hc0 : ci = 0
      · rw [if_pos hc0] at h
        simp at h
      · rw [if_neg hc0] at h
        cases hcn : t.nodes[ci]? with
        | none => rw [hcn] at h; cases h
        | some cn =>
          rw [hcn] at h
          dsimp only at h
          cases hpar : cn.parent with
          | none => rw [hpar] at h; cases h
          | some ep =>
            rw [hpar] at h
            dsimp only at h
            cases hep : t.nodes[ep]? with
            | none => rw [hep] at h; cases h
            | some epn =>
              rw [hep] at h
              dsimp only at h
              have hclt : ci < t.nodes.length :=
                (List.getElem?_eq_some.mp hcn).1
              have helt : ep < t.nodes.length :=
                (List.getElem?_eq_some.mp hep).1
              cases hcn1 : (t.nodes.set ep
                  { epn with children := epn.children.erase ci })[ci]? with
              | none => rw [hcn1] at h; cases h
              | some cn1 =>
                rw [hcn1] at h
                dsimp only at h
                cases hpn2 : ((t.nodes.set ep
                    { epn with children := epn.children.erase ci }).set ci
                    { cn1 with parent := some pi })[pi]? with
                | none => rw [hpn2] at h; cases h
                | some pn2 =>
                  rw [hpn2] at h
                  dsimp only at h
                  have hplt : pi < t.nodes.length := by
                    have := (List.getElem?_eq_some.mp hpn2).1
                    simpa [List.length_set] using this
                  cases hpn3 : (((t.nodes.set ep
                      { epn with children := epn.children.erase ci }).set ci
                      { cn1 with parent := some pi }).set pi
                      { pn2 with children := lhsInsert pn2.children ci })[pi]?
                      with
                  | none => rw [hpn3] at h; cases h
                  | some pn3 =>
                    rw [hpn3] at h
                    dsimp only at h
                    cases hcn3 : (((t.nodes.set ep
                        { epn with children := epn.children.erase ci }).set ci
                        { cn1 with parent := some pi }).set pi
                        { pn2 with children := lhsInsert pn2.children ci })[ci]?
                        with
                    | none => rw [hcn3] at h; cases h
                    | some cn3 =>
                      rw [hcn3] at h
                      dsimp only at h
                      simp only [Option.some.injEq, Prod.mk.injEq] at h
                      obtain ⟨ht', -⟩ := h
                      subst ht'
                      have hcn3p : cn3.parent = some pi := by
                        by_cases hpc : pi = ci
                        · subst hpc
                          rw [hpn3] at hcn3
                          have h1 : pn3 = cn3 := Option.some.inj hcn3
                          rw [← h1]
                          rw [List.getElem?_set_eq (by
                              simpa [List.length_set] using hplt)] at hpn3
                          have h2 : pn3 =
                              { pn2 with children := lhsInsert pn2.children pi } :=
                            (Option.some.inj hpn3).symm
                          rw [h2]
                          show pn2.parent = some pi
                          rw [List.getElem?_set_eq (by
                              simpa [List.length_set] using hplt)] at hpn2
                          have h3 : pn2 = { cn1 with parent := some pi } :=
                            (Option.some.inj hpn2).symm
                          rw [h3]
                        · rw [List.getElem?_set_ne hpc,
                            List.getElem?_set_eq (by
                              simpa [List.length_set] using hclt)] at hcn3
                          have h4 : cn3 = { cn1 with parent := some pi } :=
                            (Option.some.inj hcn3).symm
                          rw [h4]
                      refine ⟨pi, ci, rfl, rfl, hc0, ?_, ?_, ?_⟩
                      · show (List.set _ ci _).length = t.nodes.length
                        simp [List.length_set]
                      · unfold parentOf
                        dsimp only
                        rw [List.getElem?_set_eq (by
                          simpa [List.length_set] using hclt)]
                        dsimp only
                        exact hcn3p
                      · intro k hk
                        unfold parentOf
                        dsimp only
                        rw [List.getElem?_set_ne (fun hh => hk hh.symm)]
                        by_cases hkp : k = pi
                        · subst hkp
                          rw [hpn3]
                          dsimp only
                          have hpn3v : pn3 =
                              { pn2 with children := lhsInsert pn2.children ci } := by
                            rw [List.getElem?_set_eq (by
                              simpa [List.length_set] using hplt)] at hpn3
                            exact (Option.some.inj hpn3).symm
                          rw [hpn3v]
                          show pn2.parent = _
                          rw [List.getElem?_set_ne (fun hh => hk hh.symm)] at hpn2
                          by_cases hke : k = ep
                          · subst hke
                            rw [List.getElem?_set_eq helt] at hpn2
                            have : pn2 = { epn with
                                children := epn.children.erase ci } :=
                              (Option.some.inj hpn2).symm
                            rw [this, hep]
                          · rw [List.getElem?_set_ne
                              (fun hh => hke hh.symm)] at hpn2
                            rw [hpn2]
                        · rw [List.getElem?_set_ne (fun hh => hkp hh.symm),
                            List.getElem?_set_ne (fun hh => hk hh.symm)]
                          by_cases hke : k = ep
                          · subst hke
                            rw [List.getElem?_set_eq helt, hep]
                          · rw [List.getElem?_set_ne (fun hh => hke hh.symm)]

theorem parentPath_snoc (t : RTree T) (a b c : Nat)
    (h : ParentPath t a b) (hbc : parentOf t b = some c) :
    ParentPath t a c := by
  induction h with
  | single hab => exact ParentPath.cons hab (ParentPath.single hbc)
  | cons hax _ ih => exact ParentPath.cons hax (ih hbc)

theorem reach_no_cycle (t : RTree T) (i : Nat) (h0 : parentOf t 0 = none)
    (hr : ReachesRoot t i) : ¬ ParentPath t i i := by
  induction hr with
  | root =>
    intro hpp
    cases hpp with
    | single hp => rw [h0] at hp; cases hp
    | cons hp _ => rw [h0] at hp; cases hp
  | step hp hr ih =>
    rename_i i j
    intro hpp
    cases hpp with
    | single hp2 =>
      have hji : j = i := Option.some.inj (hp ▸ hp2)
      exact ih (hji ▸ ParentPath.single hp2)
    | cons hp2 hrest =>
      rename_i j2
      have hj : j2 = j := (Option.some.inj (hp ▸ hp2)).symm
      subst hj
      exact ih (parentPath_snoc t j2 i j2 hrest hp)

theorem inv_acyclic (t : RTree T) (hinv : Inv t) : Acyclic t := by
  intro i hpp
  have hi : i < t.nodes.length := by
    cases hpp with
    | single hp => exact parentOf_some_lt t i _ hp
    | cons hp _ => exact parentOf_some_lt t i _ hp
  exact reach_no_cycle t i hinv.1 (hinv.2 i hi) hpp

theorem reach_lift (t t' : RTree T)
    (hpres : ∀ k m, parentOf t k = some m → parentOf t' k = some m) :
    ∀ i, ReachesRoot t i → ReachesRoot t' i := by
  intro i h
  induction h with
  | root => exact ReachesRoot.root
  | step hp _ ih => exact ReachesRoot.step (hpres _ _ hp) ih

theorem avoid_lift (t t' : RTree T) (ci : Nat)
    (hpres : ∀ k, k ≠ ci → parentOf t' k = parentOf t k) :
    ∀ j, ReachAvoid t ci j → ReachesRoot t' j := by
  intro j h
  induction h with
  | root _ => exact ReachesRoot.root
  | step hne hp _ ih =>
    exact ReachesRoot.step (by rw [hpres _ hne]; exact hp) ih

theorem reach_transfer (t t' : RTree T) (ci : Nat)
    (hpres : ∀ k, k ≠ ci → parentOf t' k = parentOf t k)
    (hci : ReachesRoot t' ci) :
    ∀ i, ReachesRoot t i → ReachesRoot t' i := by
  intro i h
  induction h with
  | root => exact ReachesRoot.root
  | @step i j hp hr ih =>
    by_cases hic : i = ci
    · subst hic
      exact hci
    · exact ReachesRoot.step (by rw [hpres i hic]; exact hp) ih

/-- C1 counterexample: the tree `1 → 2 → 3` is built by successful
operations, the values 3 and 2 are both in the tree and 2 is not the
root, yet `set_parent(3, 2)` succeeds and creates a cycle: afterwards
node index 1 (value 2) no longer reaches the root by parent pointers,
so the unrestricted reparenting of the claim does not preserve the tree
invariant. -/
theorem C1_counterexample :
    (RTree.new (1 : ℤ)).addChild idist 1 2 = some (exT2, .ok ()) ∧
    exT2.addChild idist 2 3 = some (exT3, .ok ()) ∧
    exT3.setParent idist 3 2 = some (exT3cyc, .ok ()) ∧
    1 < exT3cyc.nodes.length ∧
    ¬ ReachesRoot exT3cyc 1 := by
  refine ⟨by rfl, by rfl, by rfl, by decide, ?_⟩
  have hzero : ∀ i, ReachesRoot exT3cyc i → i = 0 := by
    intro i h
    induction h with
    | root => rfl
    | @step i j hp hr ih =>
      subst ih
      have hi : i < exT3cyc.nodes.length := parentOf_some_lt _ i 0 hp
      have hi3 : i < 3 := by simpa [exT3cyc] using hi
      interval_cases i <;> revert hp <;> decide
  intro h
  exact absurd (hzero 1 h) (by decide)

/-- C1 (amended): a fresh tree satisfies the rooted-tree invariant
(root at index 0 with no parent, every node connected to the root by
parent pointers, no cycles); every successful `add_child` preserves it;
and a successful `set_parent(p, c)` preserves it provided the new
parent's chain to the root avoids the child (`p` is neither `c` nor a
descendant of `c`) — the restriction the counterexample shows is
necessary, and which the planner's rewiring respects. -/
theorem C1_tree_invariant_preserved :
    (∀ (v : T), Inv (RTree.new v) ∧ Acyclic (RTree.new v)) ∧
    (∀ (dist : T → T → ℤ) (t t' : RTree T) (p c : T),
      Inv t → t.addChild dist p c = some (t', .ok ()) →
      Inv t' ∧ Acyclic t') ∧
    (∀ (dist : T → T → ℤ) (t t' : RTree T) (p c : T) (pi ci : Nat),
      Inv t → alookup t.nodes_map p = some pi →
      alookup t.nodes_map c = some ci → ReachAvoid t ci pi →
      t.setParent dist p c = some (t', .ok ()) →
      Inv t' ∧ Acyclic t') := by
  refine ⟨?_, ?_, ?_⟩
  · intro v
    have hinv : Inv (RTree.new v) := by
      constructor
      · rfl
      · intro i hi
        have : i = 0 := by
          simpa [RTree.new] using hi
        subst this
        exact ReachesRoot.root
    exact ⟨hinv, inv_acyclic _ hinv⟩
  · intro dist t t' p c hinv h
    obtain ⟨pidx, hplt, hlen, hnew, hpres⟩ :=
      addChild_parentOf dist t t' p c h
    have hpres2 : ∀ k m, parentOf t k = some m → parentOf t' k = some m := by
      intro k m hk
      have hklt : k < t.nodes.length := parentOf_some_lt t k m hk
      rw [hpres k (Nat.ne_of_lt hklt)]
      exact hk
    have hinv' : Inv t' := by
      constructor
      · have h0 : (0 : Nat) ≠ t.nodes.length := by
          intro hz
          rw [← hz] at hplt
          omega
        rw [hpres 0 h0]
        exact hinv.1
      · intro i hi
        rw [hlen] at hi
        by_cases hil : i = t.nodes.length
        · subst hil
          exact ReachesRoot.step hnew
            (reach_lift t t' hpres2 pidx (hinv.2 pidx hplt))
        · exact reach_lift t t' hpres2 i (hinv.2 i (by omega))
    exact ⟨hinv', inv_acyclic _ hinv'⟩
  · intro dist t t' p c pi ci hinv hp hc havoid h
    obtain ⟨pi2, ci2, hp2, hc2, hc0, hlen, hci, hpres⟩ :=
      setParent_parentOf dist t t' p c h
    have hpi : pi = pi2 := by
      rw [hp] at hp2
      exact Option.some.inj hp2
    have hcic : ci = ci2 := by
      rw [hc] at hc2
      exact Option.some.inj hc2
    subst hpi
    subst hcic
    have hcireach : ReachesRoot t' ci :=
      ReachesRoot.step hci (avoid_lift t t' ci hpres pi havoid)
    have hinv' : Inv t' := by
      constructor
      · rw [hpres 0 (fun hz => hc0 hz.symm)]
        exact hinv.1
      · intro i hi
        rw [hlen] at hi
        exact reach_transfer t t' ci hpres hcireach i (hinv.2 i hi)
    exact ⟨hinv', inv_acyclic _ hinv'⟩

/-- C1 witness: reparenting the leaf 3 under the root 1 in the chain
`1 → 2 → 3` (the root's chain trivially avoids the child) keeps the
structure a rooted tree. -/
theorem C1_witness : Inv exT3re ∧ Acyclic exT3re :=
  C1_tree_invariant_preserved.2.2 idist exT3 exT3re 1 3 0 2
    (by
      constructor
      · rfl
      · intro i hi
        have hi3 : i < 3 := by simpa [exT3] using hi
        interval_cases i
        · exact ReachesRoot.root
        · exact ReachesRoot.step (by rfl) ReachesRoot.root
        · exact ReachesRoot.step (by rfl)
            (ReachesRoot.step (by rfl) ReachesRoot.root))
    (by rfl) (by rfl)
    (ReachAvoid.root (by decide))
    (by rfl)

/-- C2 counterexample: on the single-node tree holding only the value 0,
`nearest_neighbors(0, 0)` succeeds (returning the tree unchanged and the
query itself as nearest), yet the query value is *not* recorded as a
neighbor of itself with distance 0 — the scan explicitly skips the
query's own index — so the returned neighbor set is empty where the
claim demands `{0 ↦ 0}`. -/
theorem C2_counterexample :
    RTree.nearestNeighbors idist (RTree.new (0 : ℤ)) 0 0 =
      some (.ok (RTree.new (0 : ℤ), 0)) ∧
    ((RTree.new (0 : ℤ)).nodes.get ⟨0, by decide⟩).neighbors = [] :=
  ⟨by rfl, by rfl⟩

/-- C2 (amended): when the query value `q` is present in the tree at node
index `nidx` (the operation errors when it is absent) and `q`'s neighbor
map is empty before the call, `nearest_neighbors(q, r)` succeeds and
records in `q`'s neighbor map exactly the set of *other* in-tree nodes
within distance `r`, each mapped to its distance; the query value itself
is always excluded. -/
theorem C2_nearest_neighbors_set (dist : T → T → ℤ) (t : RTree T)
    (q : T) (r : ℤ) (nidx : Nat)
    (hq : alookup t.nodes_map q = some nidx)
    (hlt : nidx < t.nodes.length)
    (hinit : (t.nodes[nidx]).neighbors = []) :
    ∃ (t' : RTree T) (res : T),
      RTree.nearestNeighbors dist t q r = some (.ok (t', res)) ∧
      t'.nodes.length = t.nodes.length ∧
      ∃ nd', t'.nodes[nidx]? = some nd' ∧
        ∀ (i : Nat) (d : ℤ), ((i, d) ∈ nd'.neighbors ↔
          (i ≠ nidx ∧ d ≤ r ∧
            ∃ x, t.nodes[i]? = some x ∧ d = dist q x.value)) := by
  have hkey : ∀ p x, RTree.nnFilter dist q r nidx p = some x → x.1 = p.1 := by
    intro p x hpx
    rw [RTree.nnFilter] at hpx
    by_cases hc : p.1 ≠ nidx ∧ dist q p.2.value ≤ r
    · rw [if_pos hc] at hpx
      cases Option.some.inj hpx
      rfl
    · rw [if_neg hc] at hpx
      cases hpx
  set pairs : List (Nat × ℤ) :=
    t.nodes.enum.filterMap (RTree.nnFilter dist q r nidx) with hpairs
  have hkeysne : ∀ p ∈ pairs, p.1 ≠ nidx := by
    intro p hp
    rw [hpairs] at hp
    obtain ⟨a, _, ha2⟩ := List.mem_filterMap.mp hp
    rw [RTree.nnFilter] at ha2
    by_cases hc : a.1 ≠ nidx ∧ dist q a.2.value ≤ r
    · rw [if_pos hc] at ha2
      cases Option.some.inj ha2
      exact hc.1
    · rw [if_neg hc] at ha2
      cases ha2
  have hnodup : (pairs.map Prod.fst).Nodup := by
    have hnd2 : (t.nodes.enum.map Prod.fst).Nodup := by
      rw [List.enum_map_fst]
      exact List.nodup_range _
    refine List.Nodup.sublist ?_ hnd2
    rw [hpairs]
    exact filterMap_fst_sublist _ hkey t.nodes.enum
  have hscan := nnScan_neighbors dist q r nidx t.nodes.enum none nidx []
  have hni : (RTree.nnScan dist q r nidx t.nodes.enum
      (none, nidx, [])).2.1 < t.nodes.length := by
    refine nnScan_ni_lt dist q r nidx t.nodes.length t.nodes.enum none nidx []
      ?_ hlt
    intro p hp
    obtain ⟨a, b⟩ := p
    have hx := List.mem_enum_iff_getElem?.mp hp
    exact (List.getElem?_eq_some.mp hx).1
  have hat := addNeighborPairs_at nidx pairs t.nodes hlt hkeysne
  have hfold : pairs.foldl (fun m p => ninsert m p.1 p.2)
      ((t.nodes[nidx]).neighbors) = pairs := by
    rw [hinit, ninsert_fold_eq pairs [] (by simp) hnodup]
    rfl
  unfold RTree.nearestNeighbors
  rw [hq]
  dsimp only
  rw [hscan, List.nil_append, ← hpairs]
  have hlen := addNeighborPairs_length nidx pairs t.nodes
  have hnilt : (RTree.nnScan dist q r nidx t.nodes.enum
      (none, nidx, [])).2.1 <
      (RTree.addNeighborPairs nidx pairs t.nodes).length := by
    rw [hlen]
    exact hni
  rw [List.getElem?_eq_getElem hnilt]
  rw [hfold] at hat
  refine ⟨⟨RTree.addNeighborPairs nidx pairs t.nodes, t.nodes_map⟩,
    _, rfl, hlen, ?_⟩
  refine ⟨{ t.nodes[nidx] with neighbors := pairs }, hat, ?_⟩
  intro i d
  constructor
  · intro hmem
    dsimp only at hmem
    rw [hpairs] at hmem
    obtain ⟨a, ha1, ha2⟩ := List.mem_filterMap.mp hmem
    obtain ⟨u, v⟩ := a
    rw [RTree.nnFilter] at ha2
    by_cases hc : (u, v).1 ≠ nidx ∧ dist q (u, v).2.value ≤ r
    · rw [if_pos hc] at ha2
      have h1 : u = i ∧ dist q v.value = d := by
        have := Option.some.inj ha2
        exact ⟨congrArg Prod.fst this, congrArg Prod.snd this⟩
      obtain ⟨hai, had⟩ := h1
      refine ⟨by rw [← hai]; exact hc.1, by rw [← had]; exact hc.2,
        v, ?_, had.symm⟩
      rw [← hai]
      exact List.mem_enum_iff_getElem?.mp ha1
    · rw [if_neg hc] at ha2
      cases ha2
  · intro hyp
    obtain ⟨hine, hdr, x, hx, hdx⟩ := hyp
    dsimp only
    rw [hpairs]
    refine List.mem_filterMap.mpr ⟨(i, x),
      List.mem_enum_iff_getElem?.mpr hx, ?_⟩
    rw [RTree.nnFilter, if_pos ⟨hine, by rw [← hdx]; exact hdr⟩, ← hdx]

/-- C2 witness: in the chain `1 → 2 → 3` with query 2 (node index 1) and
radius 1, the recorded neighbor set of node 1 is exactly
`{0 ↦ 1, 2 ↦ 1}` — both other nodes, the query excluded. -/
theorem C2_witness :
    ∃ (t' : RTree ℤ) (res : ℤ),
      RTree.nearestNeighbors idist exT3 2 1 = some (.ok (t', res)) ∧
      t'.nodes.length = exT3.nodes.length ∧
      ∃ nd', t'.nodes[1]? = some nd' ∧
        ∀ (i : Nat) (d : ℤ), ((i, d) ∈ nd'.neighbors ↔
          (i ≠ 1 ∧ d ≤ 1 ∧
            ∃ x, exT3.nodes[i]? = some x ∧ d = idist 2 x.value)) :=
  C2_nearest_neighbors_set idist exT3 2 1 1 (by rfl) (by decide) (by rfl)

/-- C8 witness: in the chain `1 → 2 → 3`, `set_parent(2, 3)` (value 2 is
already value 3's parent) succeeds, is idempotent, and leaves index 2
exactly once in node 1's children. -/
theorem C8_witness :
    ∃ t₁ : RTree ℤ,
      exT3.setParent idist 2 3 = some (t₁, .ok ()) ∧
      t₁.setParent idist 2 3 = some (t₁, .ok ()) ∧
      (t₁.nodes[1]?).map (fun n => n.children.count 2) = some 1 :=
  C8_set_parent_idempotent idist exT3 2 3 1 2 (by rfl) (by rfl)
    (by decide) (by decide) (by decide) (by decide) (by decide) (by decide)

end Claims

end RustPlanning
